import Mathlib

/-!
Verification development for the PDF duty-roster matcher
(`src/dp_druck_pdf.py`).  Strings are embedded as `List Char`; the pure
matching core (normalisation, name variants, the matching strategies, the
filename disambiguator, spreadsheet-row parsing and the date-scoped join)
is translated function by function from the Python source.  External
library behaviour that the source merely calls into (Unicode NFKD
decomposition, combining-mark classification, the fuzzywuzzy similarity
scorer, pandas cell parsing) is modelled: NFKD and the combining-mark
predicate are explicit parameters, cells are an inductive `PyVal` carrying
their parse fate, and the similarity scorer is a parameter (with one
concrete spec-modelled instance defined below for counterexamples).
Numeric cells are modelled with exact rational arithmetic.
-/

abbrev Str := List Char

/-- Python whitespace class (ASCII part), as used by `str.strip`, `str.split`
and the regex `\s`: space, tab, newline, carriage return, vertical tab,
form feed. -/
def isWsChar (c : Char) : Bool :=
  c.toNat = 32 || c.toNat = 9 || c.toNat = 10 || c.toNat = 13 || c.toNat = 11 || c.toNat = 12

/-- The regex class `[A-Za-z0-9]` used by the source's substitutions. -/
def isAlnumChar (c : Char) : Bool :=
  (48 ≤ c.toNat && c.toNat ≤ 57) || (65 ≤ c.toNat && c.toNat ≤ 90)
    || (97 ≤ c.toNat && c.toNat ≤ 122)

/-- ASCII uppercasing of one character, the model of Python `str.upper`
(the source only ever uppercases ASCII-only strings after its own
umlaut folding and alphanumeric filtering). -/
def pyUpperChar (c : Char) : Char :=
  if 97 ≤ c.toNat ∧ c.toNat ≤ 122 then Char.ofNat (c.toNat - 32) else c

/-- Model of Python `str.upper` (see `pyUpperChar`). -/
def pyUpper (s : Str) : Str := s.map pyUpperChar

/-- Drop trailing whitespace, the right half of Python `str.strip`. -/
def dropTrailWs : Str → Str
  | [] => []
  | c :: cs =>
    match dropTrailWs cs with
    | [] => if isWsChar c then [] else [c]
    | r => c :: r

/-- Python `str.strip()`: drop leading and trailing whitespace. -/
def pyStrip (s : Str) : Str := dropTrailWs (s.dropWhile isWsChar)

/-- Worker for `pySplit`; `cur` is the reversed current word. -/
def pySplitGo : Str → Str → List Str
  | cur, [] => if cur.isEmpty then [] else [cur.reverse]
  | cur, c :: cs =>
    if isWsChar c then
      (if cur.isEmpty then pySplitGo [] cs else cur.reverse :: pySplitGo [] cs)
    else pySplitGo (c :: cur) cs

/-- Python `str.split()` with no separator: split on whitespace runs,
returning no empty words. -/
def pySplit (s : Str) : List Str := pySplitGo [] s

/-- The regex substitution `re.sub(r"\s+", " ", s)`: each whitespace run
becomes one space.  The flag records whether we are inside a run. -/
def collapseWs : Bool → Str → Str
  | _, [] => []
  | inRun, c :: cs =>
    if isWsChar c then
      (if inRun then collapseWs true cs else ' ' :: collapseWs true cs)
    else c :: collapseWs false cs

/-- The regex substitution `re.sub(r"[^A-Za-z0-9]+", " ", s)`: each run of
non-alphanumeric characters becomes one space. -/
def replaceNonAlnum : Bool → Str → Str
  | _, [] => []
  | inRun, c :: cs =>
    if isAlnumChar c then c :: replaceNonAlnum false cs
    else (if inRun then replaceNonAlnum true cs else ' ' :: replaceNonAlnum true cs)

/-- Python substring test `needle in haystack`. -/
def subStr : Str → Str → Bool
  | n, [] => n.isEmpty
  | n, h =>
    match h with
    | [] => n.isEmpty
    | _ :: t => n.isPrefixOf h || subStr n t

/-- The source's explicit German-letter substitutions
(ä→ae, ö→oe, ü→ue, Ä→AE, Ö→OE, Ü→UE, ß→ss, ẞ→SS), character-wise. -/
def umlautFoldChar : Char → Str
  | 'ä' => ['a', 'e']
  | 'ö' => ['o', 'e']
  | 'ü' => ['u', 'e']
  | 'Ä' => ['A', 'E']
  | 'Ö' => ['O', 'E']
  | 'Ü' => ['U', 'E']
  | 'ß' => ['s', 's']
  | 'ẞ' => ['S', 'S']
  | c => [c]

/-- The chain of `str.replace` calls folding German letters.  Sequential
whole-string replaces coincide with this character-wise expansion because
every replacement output is plain ASCII, never itself an umlaut. -/
def umlautFold (s : Str) : Str := s.flatMap umlautFoldChar

/-- Source `normalize_name`: `re.sub(r"\s+", " ", name.upper().strip())`. -/
def normalize_name (name : Str) : Str := collapseWs false (pyStrip (pyUpper name))

/-- Source `de_ascii_normalize`.  `nfkd` models `unicodedata.normalize("NFKD", ·)`
and `comb` models `unicodedata.combining`; both are stdlib collaborators and
enter as parameters of the embedding. -/
def de_ascii_normalize (nfkd : Str → Str) (comb : Char → Bool) (s : Str) : Str :=
  pyUpper (pyStrip (collapseWs false (replaceNonAlnum false
    ((nfkd (umlautFold s)).filter (fun ch => !comb ch)))))

/-- Source `prepend_filename_to_text`: the synthetic filename line. -/
def prepend_filename_to_text (page_text : Str) (pdf_name : Str) : Str :=
  ("__FILENAME__: ").toList ++ pdf_name ++ '\n' :: page_text

/-- The regex `re.sub(r"\.[Pp][Dd][Ff]$", "", pdf_name)`: strip one final
`.pdf` extension, case-insensitively. -/
def stripPdfExt (s : Str) : Str :=
  match s.reverse with
  | f :: d :: p :: '.' :: rest =>
    if (f = 'f' || f = 'F') && (d = 'd' || d = 'D') && (p = 'p' || p = 'P') then
      rest.reverse
    else s
  | _ => s

/-- Source `filename_tokens`: strip the extension, fold umlauts, replace
non-alphanumeric runs by spaces, uppercase, split (the source's final
truthiness filter drops nothing because `split()` already drops empties,
and is kept by `pySplit` returning no empty words). -/
def filename_tokens (pdf_name : Str) : List Str :=
  pySplit (pyUpper (replaceNonAlnum false (umlautFold (stripPdfExt pdf_name))))

/-- The drop condition inside `choose_best_candidate`'s first loop: the
candidate's first token uppercases to ADLER and ADLER is not among the
filename tokens. -/
def isAdlerDropped (pdf_name : Str) (c : Str) : Bool :=
  match (pySplit (pyStrip c)).head? with
  | some p => pyUpper p == ("ADLER").toList
      && !((filename_tokens pdf_name).contains (("ADLER").toList))
  | none => false

/-- Source `choose_best_candidate`: Adler rule, then prefer a candidate
whose surname token occurs in the filename tokens, else the first
remaining candidate. -/
def choose_best_candidate (candidates : List Str) (pdf_name : Str) : Option Str :=
  if candidates.isEmpty then none
  else
    let toks := filename_tokens pdf_name
    let filtered := candidates.filter (fun c => !isAdlerDropped pdf_name c)
    match filtered with
    | [] => none
    | f :: _ =>
      match filtered.find? (fun c =>
          let parts := pySplit (pyStrip c)
          2 ≤ parts.length && (match parts.head? with
            | some p => toks.contains (pyUpper p)
            | none => false)) with
      | some c => some c
      | none => some f

/-- The variant dictionary built by `create_name_variants`, with the
source's key order preserved by the field order. -/
structure NameVariants where
  original : Str
  nachname : Str
  vorname : Str
  full_normalized : Str
  nachname_normalized : Str
  vorname_normalized : Str
  ascii_full : Str
  ascii_nachname : Str
  ascii_vorname : Str
  reversed : Str
  initials : Str
  short_variants : List Str
deriving DecidableEq, Repr, Inhabited

/-- Source `create_name_variants`; `none` models the empty dict returned
for a name of fewer than two tokens. -/
def create_name_variants (nfkd : Str → Str) (comb : Char → Bool)
    (full_name : Str) : Option NameVariants :=
  let parts := pySplit (pyStrip full_name)
  if parts.length < 2 then none
  else
    let nachname := parts.getD 0 []
    let vorname := parts.getD 1 []
    some {
      original := full_name
      nachname := nachname
      vorname := vorname
      full_normalized := normalize_name full_name
      nachname_normalized := normalize_name nachname
      vorname_normalized := normalize_name vorname
      ascii_full := de_ascii_normalize nfkd comb full_name
      ascii_nachname := de_ascii_normalize nfkd comb nachname
      ascii_vorname := de_ascii_normalize nfkd comb vorname
      reversed := vorname ++ ' ' :: nachname
      initials :=
        match nachname, vorname with
        | nc :: _, vc :: _ => [nc, '.', vc, '.']
        | _, _ => []
      short_variants :=
        match nachname, vorname with
        | nc :: _, vc :: _ =>
          [vorname ++ [' ', nc, '.'],
           [vc, '.', ' '] ++ nachname,
           nachname ++ ',' :: ' ' :: vorname,
           nachname ++ ',' :: vorname]
        | _, _ => [] }

/-- The variant strings scanned by `fuzzy_match_with_threshold`, in the
dictionary's iteration order; the plain string entries pass through the
source's truthiness filter (`and value`), the short variants do not. -/
def variantStrings (v : NameVariants) : List Str :=
  ([v.original, v.nachname, v.vorname, v.full_normalized, v.nachname_normalized,
    v.vorname_normalized, v.ascii_full, v.ascii_nachname, v.ascii_vorname,
    v.reversed, v.initials].filter (fun s => !s.isEmpty))
  ++ v.short_variants

/-- Source `fuzzy_match_with_threshold`.  `lib` models the importability of
the similarity library: `none` is the `ImportError` path (`return 0`), and
`some fz` supplies `fuzz.partial_ratio` as a scoring function.  The
`threshold` parameter is accepted and, as in the source, never used. -/
def fuzzy_match_with_threshold (lib : Option (Str → Str → Nat)) (text : Str)
    (v : NameVariants) (threshold : Nat) : Nat :=
  match lib with
  | none => 0
  | some fz =>
    (variantStrings v).foldl (fun m s => max m (fz (pyUpper s) (pyUpper text))) 0

/-- Stable descending insertion, inserting after earlier equal scores; the
fold below therefore agrees with Python's stable `sort(key, reverse=True)`. -/
def insertDesc (c : Str × Nat) : List (Str × Nat) → List (Str × Nat)
  | [] => [c]
  | d :: ds => if c.2 ≤ d.2 then d :: insertDesc c ds else c :: d :: ds

/-- The per-name score of `advanced_name_matching`: strategies 1 to 4 in
an if/elif cascade, then strategy 5 (short variants) only at score 0.
The human-readable method strings and the debug output of the source are
display-only and not modelled. -/
def strategyScore (nfkd : Str → Str) (comb : Char → Bool)
    (lib : Option (Str → Str → Nat)) (text : Str) (text_ascii : Str)
    (text_words : List Str) (text_lines : List Str) (v : NameVariants) : Nat :=
  let s :=
    if text_words.contains v.nachname_normalized
        && text_words.contains v.vorname_normalized then 100
    else if subStr v.ascii_nachname text_ascii
        && subStr v.ascii_vorname text_ascii then 95
    else if text_lines.any (fun line =>
        subStr v.ascii_nachname (de_ascii_normalize nfkd comb line)
          && subStr v.ascii_vorname (de_ascii_normalize nfkd comb line)) then 90
    else
      let fuzzy_score := fuzzy_match_with_threshold lib text v 80
      if 80 ≤ fuzzy_score then fuzzy_score else 0
  if s = 0 then
    if (v.short_variants.any (fun sv =>
        subStr (de_ascii_normalize nfkd comb sv) text_ascii)) then 70 else 0
  else s

/-- Source `advanced_name_matching`.  `none` models the `KeyError` raised
when some roster name has fewer than two tokens (its empty variant dict
has no `original` key).  Otherwise the result is the source's returned
list: empty, or exactly one winner after the internal sort, the
similar-score window and `choose_best_candidate` (whose falsy result
falls back to the top-scored candidate, modelling `or`). -/
def advanced_name_matching (nfkd : Str → Str) (comb : Char → Bool)
    (lib : Option (Str → Str → Nat)) (text : Str) (excel_names : List Str)
    (pdf_name : Str) : Option (List Str) :=
  (excel_names.mapM (create_name_variants nfkd comb)).map (fun variants_list =>
    let text_normalized := normalize_name text
    let text_ascii := de_ascii_normalize nfkd comb text
    let text_words := pySplit text_normalized
    let text_lines := ((text.splitOn '\n').map pyStrip).filter (fun l => !l.isEmpty)
    let scored := variants_list.map (fun v =>
      (v.original, strategyScore nfkd comb lib text text_ascii text_words text_lines v))
    let candidates := scored.filter (fun c => 0 < c.2)
    let sorted := candidates.foldl (fun acc c => insertDesc c acc) []
    match sorted with
    | [] => []
    | top :: _ =>
      let best_candidates := (sorted.filter (fun c => top.2 ≤ c.2 + 10)).map (fun c => c.1)
      match choose_best_candidate best_candidates pdf_name with
      | some w => if w.isEmpty then [top.1] else [w]
      | none => [top.1])

/-- The pure page loop of `extract_names_enhanced`: per-page text arrives
from the PDF/OCR collaborators as input, every page is matched against the
text with the filename line prepended, and the page's chosen name is the
head of the match list or the empty string.  `none` again models the
propagated `KeyError` of `advanced_name_matching`. -/
def extract_names_enhanced (nfkd : Str → Str) (comb : Char → Bool)
    (lib : Option (Str → Str → Nat)) (page_texts : List Str)
    (excel_names : List Str) (pdf_name : Str) : Option (List Str) :=
  page_texts.mapM (fun text =>
    (advanced_name_matching nfkd comb lib
        (prepend_filename_to_text text pdf_name) excel_names pdf_name).map
      (fun matched => matched.headD []))

/-- A spreadsheet cell as delivered by pandas, the model universe for the
row-parsing claims.  A `pystr` cell carries the outcome that
`pd.to_datetime` would have on it (day number, hour, minute) so that the
external parser need not be reproduced; `num` cells hold exact rationals,
modelling the numeric (int or float) cells with exact arithmetic. -/
inductive PyVal where
  | na : PyVal
  | pytime (h m : Nat) : PyVal
  | pydatetime (d h m : Nat) : PyVal
  | num (q : ℚ) : PyVal
  | pystr (s : Str) (parsed : Option (Nat × Nat × Nat)) : PyVal
  | other (repr : Str) : PyVal
deriving DecidableEq

/-- Model of `pd.isna` on a cell. -/
def pyIsNa : PyVal → Bool
  | .na => true
  | _ => false

/-- Modelled from the spec: `pd.to_datetime(x, errors="coerce")` followed
by taking the calendar date, as used on the date column; the pandas
parser itself is not part of the repository.  A datetime cell yields its
day number, a string cell yields the date its recorded parse carries,
everything else coerces to NaT (`none`). -/
def pyToDatetime : PyVal → Option Nat
  | .pydatetime d _ _ => some d
  | .pystr _ (some (d, _, _)) => some d
  | _ => none

/-- Zero-padded two-digit rendering, Python's `f"{n:02d}"` for the
nonnegative values produced here. -/
def pad2 (n : Nat) : Str :=
  if n < 10 then '0' :: Nat.toDigits 10 n else Nat.toDigits 10 n

/-- An `HH:MM` string, Python's `strftime("%H:%M")` and the source's
f-string over total minutes. -/
def hhmm (h m : Nat) : Str := pad2 h ++ ':' :: pad2 m

/-- Python `value % 1` on the exact-rational model of a number. -/
def pyMod1 (q : ℚ) : ℚ := q - (Rat.floor q : ℚ)

/-- Python `round` on the exact-rational model: round half to even. -/
def pyRound (q : ℚ) : ℤ :=
  let f := Rat.floor q
  let r := q - (f : ℚ)
  if r < 1 / 2 then f
  else if 1 / 2 < r then f + 1
  else if f % 2 = 0 then f else f + 1

/-- Python `str()` of a cell value, as used on name and tour cells.  The
renderings of non-string cells model `str` without reproducing CPython's
formatting in detail; the claims only apply it to string cells. -/
def pyStr : PyVal → Str
  | .na => ("nan").toList
  | .pytime h m => hhmm h m ++ (":00").toList
  | .pydatetime d h m => (toString d).toList ++ ' ' :: hhmm h m
  | .num q => (toString q.num).toList
  | .pystr s _ => s
  | .other r => r

/-- Source `format_time`: the branch cascade on the cell's runtime type. -/
def format_time : PyVal → Str
  | .na => []
  | .pytime h m => hhmm h m
  | .pydatetime _ h m => hhmm h m
  | .num q =>
    let total_minutes := (pyRound (pyMod1 q * 1440)).toNat
    hhmm (total_minutes / 60) (total_minutes % 60)
  | .pystr s parsed =>
    match parsed with
    | some (_, h, m) => hhmm h m
    | none => s
  | .other r => r

/-- Modelled from the spec: `pandas.Timestamp.day_name()` for the abstract
day numbers of this embedding, with day 0 a Monday; the calendar library
is not part of the repository. -/
def dayNameEn (d : Nat) : Str :=
  (["Monday", "Tuesday", "Wednesday", "Thursday", "Friday", "Saturday",
    "Sunday"].map String.toList).getD (d % 7) []

/-- The source's `WEEKDAYS_DE` dictionary, with `.get(x, x)` fallback. -/
def weekdaysDe (s : Str) : Str :=
  if s = ("Monday").toList then ("Montag").toList
  else if s = ("Tuesday").toList then ("Dienstag").toList
  else if s = ("Wednesday").toList then ("Mittwoch").toList
  else if s = ("Thursday").toList then ("Donnerstag").toList
  else if s = ("Friday").toList then ("Freitag").toList
  else if s = ("Saturday").toList then ("Samstag").toList
  else if s = ("Sunday").toList then ("Sonntag").toList
  else s

/-- Modelled from the spec: `strftime("%d.%m.%Y")` for the abstract day
numbers of this embedding (dates are opaque day counts here, so the
display form is their decimal rendering). -/
def formatDateDe (d : Nat) : Str := (toString d).toList

/-- One parsed roster record, the dict built by `extract_entries`. -/
structure RosterEntry where
  datum : Str
  datum_raw : Nat
  wochentag : Str
  tour : PyVal
  uhrzeit : Str
  lkw : PyVal
  name : Str
deriving DecidableEq

/-- Source `extract_entries`: date cell first (unparseable date ⇒ no
records), then one record per driver slot whose two name cells are
non-NA.  Rows are cell lists; out-of-range reads behave as NA reads,
matching the guarded accesses (`len(row) > k`) for the payload columns. -/
def extract_entries (row : List PyVal) : List RosterEntry :=
  match pyToDatetime (row.getD 14 .na) with
  | none => []
  | some datum =>
    let weekday := weekdaysDe (dayNameEn datum)
    let mkEntry := fun (nm : Str) =>
      { datum := weekday ++ (", ").toList ++ formatDateDe datum
        datum_raw := datum
        wochentag := weekday
        tour := if 15 < row.length then row.getD 15 .na else .pystr [] none
        uhrzeit := if 8 < row.length then format_time (row.getD 8 .na) else []
        lkw := if 11 < row.length then row.getD 11 .na else .pystr [] none
        name := nm : RosterEntry }
    (if !pyIsNa (row.getD 3 .na) && !pyIsNa (row.getD 4 .na) then
      [mkEntry (pyStrip (pyStr (row.getD 3 .na)) ++ ' ' :: pyStrip (pyStr (row.getD 4 .na)))]
    else []) ++
    (if !pyIsNa (row.getD 6 .na) && !pyIsNa (row.getD 7 .na) then
      [mkEntry (pyStrip (pyStr (row.getD 6 .na)) ++ ' ' :: pyStrip (pyStr (row.getD 7 .na)))]
    else [])

/-- Source `parse_excel_data`: concatenate each row's entries in row
order, which fixes the parse order used by the join. -/
def parse_excel_data (rows : List (List PyVal)) : List RosterEntry :=
  rows.flatMap extract_entries

/-- The per-page stamp dict built in the main loop. -/
structure PageAnn where
  matched_name : Str
  tour : Str
  weekday : Str
  time : Str
deriving DecidableEq

/-- The `day_df` date filter of the main loop:
`df_excel[df_excel["Datum_raw"].dt.date == search_date]`. -/
def day_filter (entries : List RosterEntry) (search_date : Nat) : List RosterEntry :=
  entries.filter (fun e => e.datum_raw == search_date)

/-- The body of the `page_ann` loop for one recognised name: an empty name
yields no stamp, otherwise the first row of `day_df` whose `Name` equals
it supplies the payload. -/
def page_ann_for (day_df : List RosterEntry) (ocr : Str) : Option PageAnn :=
  if ocr.isEmpty then none
  else
    (day_df.filter (fun e => e.name == ocr)).head?.map
      (fun e => { matched_name := ocr, tour := pyStr e.tour, weekday := e.wochentag,
                  time := e.uhrzeit })

/-- The roster join for one page: date scope, then name lookup. -/
def roster_join (entries : List RosterEntry) (search_date : Nat) (ocr : Str) :
    Option PageAnn :=
  page_ann_for (day_filter entries search_date) ocr

/-- Modelled from the spec: the longest common subsequence length behind a
difflib-style similarity, computed by dynamic programming (`row` holds the
LCS values of the current prefix against every prefix of `b`). -/
def lcsStep (ca : Char) : Str → List Nat → Nat → List Nat
  | [], _, _ => []
  | _ :: _, [], _ => []
  | cb :: bs, oldDiag :: oldRest, curr =>
    let v := if ca = cb then oldDiag + 1 else max curr (oldRest.headD 0)
    v :: lcsStep ca bs oldRest v

/-- Modelled from the spec: LCS length of two character lists. -/
def lcsLen (a b : Str) : Nat :=
  (a.foldl (fun row ca => 0 :: lcsStep ca b row 0) (List.replicate (b.length + 1) 0)).getLastD 0

/-- Modelled from the spec: the Levenshtein-ratio-style similarity on the
0..100 scale (`2 * matches / total length`, rounded down), the score the
similarity library computes for two whole strings. -/
def seqSim (a b : Str) : Nat :=
  if a.length + b.length = 0 then 100 else (200 * lcsLen a b) / (a.length + b.length)

/-- Modelled from the spec: the partial (best-window) similarity the
source's `fuzz.partial_ratio` stands for — the best `seqSim` of the shorter
string against every window of its length in the longer one. -/
def partialSim (s1 s2 : Str) : Nat :=
  let sh := if s1.length ≤ s2.length then s1 else s2
  let lo := if s1.length ≤ s2.length then s2 else s1
  if sh.isEmpty then 0
  else (List.range (lo.length - sh.length + 1)).foldl
    (fun m i => max m (seqSim sh ((lo.drop i).take sh.length))) 0

/-- Stated from the spec for the refinement comparison of C2: the best
similarity of one name component against every word of the page text. -/
def specMaxWordSim (sim : Str → Str → Nat) (w : Str) (text : Str) : Nat :=
  (pySplit text).foldl (fun m t => max m (sim (pyUpper w) (pyUpper t))) 0

/-- Stated from the spec for the refinement comparison of C2: accept a
roster name iff the word-wise maxima of its surname and given-name
components against the page text are both at least 90. -/
def specFuzzyBothGe90 (sim : Str → Str → Nat) (text : Str) (name : Str) : Bool :=
  match pySplit (pyStrip name) with
  | sur :: giv :: _ =>
    (90 ≤ specMaxWordSim sim sur text) && (90 ≤ specMaxWordSim sim giv text)
  | _ => false

/-- The acceptance condition of the source's fuzzy strategy (strategy 4 of
`advanced_name_matching`): the fuzzy score reaches 80. -/
def fuzzyStrategyAccepts (lib : Option (Str → Str → Nat)) (text : Str)
    (v : NameVariants) : Bool :=
  80 ≤ fuzzy_match_with_threshold lib text v 80

/-- The acceptance condition of the source's exact-word strategy
(strategy 1 of `advanced_name_matching`). -/
def exactStrategyAccepts (text : Str) (v : NameVariants) : Bool :=
  (pySplit (normalize_name text)).contains v.nachname_normalized
    && (pySplit (normalize_name text)).contains v.vorname_normalized

/-- Stated from the spec for the refinement comparison of C5: a driver
slot's cells are "non-empty" when they are non-NA and their string form
is not the empty string. -/
def specSlotNonEmpty (row : List PyVal) (i j : Nat) : Bool :=
  !pyIsNa (row.getD i .na) && !pyIsNa (row.getD j .na)
    && !(pyStrip (pyStr (row.getD i .na))).isEmpty
    && !(pyStrip (pyStr (row.getD j .na))).isEmpty

/-- The character alphabet of fully normalised text: uppercase ASCII
letters, digits, and the space. -/
def canonChar (c : Char) : Bool :=
  (48 ≤ c.toNat && c.toNat ≤ 57) || (65 ≤ c.toNat && c.toNat ≤ 90) || c = ' '

/-- No two adjacent spaces. -/
def noDoubleSpace : Str → Bool
  | [] => true
  | [_] => true
  | a :: b :: t => !(a = ' ' && b = ' ') && noDoubleSpace (b :: t)

/-- ASCII alphanumerics of either case, or the space: the alphabet
produced by `replaceNonAlnum`. -/
def alnumSpChar (c : Char) : Bool := isAlnumChar c || c = ' '

theorem ratFloor_eq_intFloor (q : ℚ) : (Rat.floor q : ℤ) = ⌊q⌋ := by
  rw [Rat.floor_def', Rat.floor_def]

theorem pyMod1_eq_fract (q : ℚ) : pyMod1 q = Int.fract q := by
  rw [pyMod1, ratFloor_eq_intFloor]
  rfl

theorem pyMod1_idem (q : ℚ) : pyMod1 (pyMod1 q) = pyMod1 q := by
  rw [pyMod1_eq_fract, pyMod1_eq_fract, Int.fract_fract]

/-- C10: `format_time` maps a missing (NaN) cell to the empty string, and
on a numeric cell its value depends only on the fractional part
(`format_time v = format_time (v % 1)`), producing an `HH:MM` string via
the zero-padding `pad2` whose minute component is below 60. -/
theorem format_time_props (q : ℚ) :
    format_time .na = [] ∧
    format_time (.num q) = format_time (.num (pyMod1 q)) ∧
    ∃ h m : Nat, m < 60 ∧ format_time (.num q) = pad2 h ++ ':' :: pad2 m := by
  refine ⟨rfl, ?_, ?_⟩
  · show format_time (.num q) = format_time (.num (pyMod1 q))
    simp only [format_time, pyMod1_idem]
  · exact ⟨(pyRound (pyMod1 q * 1440)).toNat / 60,
      (pyRound (pyMod1 q * 1440)).toNat % 60,
      Nat.mod_lt _ (by norm_num), rfl⟩

/-- C7: `create_name_variants` yields the empty variant set exactly for
names of fewer than two whitespace tokens, and any produced variant set
keeps the input unchanged in its `original` field. -/
theorem create_name_variants_spec (nfkd : Str → Str) (comb : Char → Bool) (s : Str) :
    (create_name_variants nfkd comb s = none ↔ (pySplit (pyStrip s)).length < 2) ∧
    (∀ v, create_name_variants nfkd comb s = some v → v.original = s) := by
  unfold create_name_variants
  by_cases hlt : (pySplit (pyStrip s)).length < 2
  · simp [hlt]
  · simp only [hlt, if_false]
    refine ⟨by simp [hlt], ?_⟩
    intro v hv
    cases hv
    rfl

theorem create_name_variants_spec_witness :
    ((create_name_variants (fun l => l) (fun _ => false)
        (("Mueller Thomas").toList)).getD default).original
      = ("Mueller Thomas").toList :=
  (create_name_variants_spec (fun l => l) (fun _ => false)
    (("Mueller Thomas").toList)).2 _ rfl

/-- C4 counterexample: with the similarity library unavailable the fuzzy
scorer returns 0 and the fuzzy strategy rejects, on a page whose text the
exact strategy accepts — so the unavailable fuzzy strategy does not
degrade to the exact strategy, it silently rejects. -/
theorem fuzzy_unavailable_not_exact :
    fuzzy_match_with_threshold none (("MUELLER THOMAS").toList)
        ((create_name_variants (fun l => l) (fun _ => false)
          (("Mueller Thomas").toList)).getD default) 80 = 0
    ∧ fuzzyStrategyAccepts none (("MUELLER THOMAS").toList)
        ((create_name_variants (fun l => l) (fun _ => false)
          (("Mueller Thomas").toList)).getD default) = false
    ∧ exactStrategyAccepts (("MUELLER THOMAS").toList)
        ((create_name_variants (fun l => l) (fun _ => false)
          (("Mueller Thomas").toList)).getD default) = true := by
  decide

/-- C4 amended: when the similarity library is unavailable
(`ImportError`), `fuzzy_match_with_threshold` returns 0 on every input,
so the fuzzy strategy never accepts any name — a silent always-reject
within that strategy, with no warning and no downgrade to exact. -/
theorem fuzzy_unavailable_always_zero (text : Str) (v : NameVariants) (threshold : Nat) :
    fuzzy_match_with_threshold none text v threshold = 0 := rfl

/-- C9: the text handed to the matching strategies for every page is
exactly the filename line `"__FILENAME__: " ++ pdf_name ++ "\n"` followed
by the page's extracted text. -/
theorem extract_names_enhanced_feeds_prefixed (nfkd : Str → Str) (comb : Char → Bool)
    (lib : Option (Str → Str → Nat)) (page_texts excel_names : List Str)
    (pdf_name : Str) :
    (∀ t, prepend_filename_to_text t pdf_name
      = ("__FILENAME__: ").toList ++ pdf_name ++ '\n' :: t) ∧
    extract_names_enhanced nfkd comb lib page_texts excel_names pdf_name
      = page_texts.mapM (fun t =>
          (advanced_name_matching nfkd comb lib
              (("__FILENAME__: ").toList ++ pdf_name ++ '\n' :: t)
              excel_names pdf_name).map (fun matched => matched.headD [])) :=
  ⟨fun _ => rfl, rfl⟩

/-- C3 counterexample: a non-empty candidate list can still yield an
absent result — a lone Adler candidate is dropped when ADLER is not among
the filename tokens. -/
theorem choose_best_candidate_none_on_nonempty :
    choose_best_candidate [("Adler Hans").toList] (("tour.pdf").toList) = none
    ∧ ([("Adler Hans").toList] : List Str) ≠ [] := by
  decide


theorem match_find_ne_none {p : Str → Bool} {f : Str} {fs : List Str} :
    (match (f :: fs).find? p with | some c => some c | none => some f) ≠ none := by
  rcases h : (f :: fs).find? p with _ | c <;> simp [h]

theorem match_find_mem {p : Str → Bool} {f c : Str} {fs : List Str}
    (h : (match (f :: fs).find? p with | some x => some x | none => some f) = some c) :
    c ∈ f :: fs := by
  rcases hfind : (f :: fs).find? p with _ | w <;> rw [hfind] at h
  · cases h
    exact List.mem_cons_self _ _
  · cases h
    exact List.mem_of_find?_eq_some hfind

/-- C3 amended: `choose_best_candidate` always returns one of its input
candidates, and is absent exactly when every candidate (vacuously, none)
falls to the Adler rule: surname token ADLER with ADLER not among the
filename tokens. -/
theorem choose_best_candidate_spec (cs : List Str) (pdf_name : Str) :
    (choose_best_candidate cs pdf_name = none
      ↔ ∀ c ∈ cs, isAdlerDropped pdf_name c = true) ∧
    (∀ c, choose_best_candidate cs pdf_name = some c → c ∈ cs) := by
  cases cs with
  | nil => simp [choose_best_candidate]
  | cons a t =>
    unfold choose_best_candidate
    simp only [if_neg (show ¬((a :: t).isEmpty = true) by simp)]
    rcases hf : (a :: t).filter (fun c => !isAdlerDropped pdf_name c) with _ | ⟨f, fs⟩
    · rw [List.filter_eq_nil_iff] at hf
      refine ⟨⟨fun _ c hc => ?_, fun _ => rfl⟩, fun c hc => by cases hc⟩
      simpa using hf c hc
    · have hmem : ∀ x, x ∈ f :: fs → x ∈ a :: t := by
        intro x hx
        rw [← hf] at hx
        exact List.mem_of_mem_filter hx
      have hfkept : isAdlerDropped pdf_name f = false := by
        have hin : f ∈ (a :: t).filter (fun c => !isAdlerDropped pdf_name c) := by
          rw [hf]
          exact List.mem_cons_self f fs
        simpa using List.of_mem_filter hin
      refine ⟨⟨fun h => absurd h match_find_ne_none, fun h => ?_⟩,
        fun c hc => hmem _ (match_find_mem hc)⟩
      have hdrop := h f (hmem f (List.mem_cons_self f fs))
      rw [hfkept] at hdrop
      cases hdrop

theorem choose_best_candidate_spec_witness :
    ("Mueller Thomas").toList ∈ [("Mueller Thomas").toList] :=
  (choose_best_candidate_spec [("Mueller Thomas").toList] (("x.pdf").toList)).2
    (("Mueller Thomas").toList) rfl

/-- C5 counterexample: a row whose driver-1 last-name cell holds the empty
string (a non-empty-check would reject it, but `pd.notna` accepts it)
still produces a record, although neither slot is non-empty in the
claim's sense. -/
theorem extract_entries_empty_string_cell :
    (extract_entries [.na, .na, .na, .pystr [] none,
        .pystr (("Thomas").toList) none, .na, .na, .na, .na, .na, .na, .na,
        .na, .na, .pydatetime 5 0 0, .pystr (("7").toList) none]).length = 1
    ∧ specSlotNonEmpty [.na, .na, .na, .pystr [] none,
        .pystr (("Thomas").toList) none, .na, .na, .na, .na, .na, .na, .na,
        .na, .na, .pydatetime 5 0 0, .pystr (("7").toList) none] 3 4 = false
    ∧ specSlotNonEmpty [.na, .na, .na, .pystr [] none,
        .pystr (("Thomas").toList) none, .na, .na, .na, .na, .na, .na, .na,
        .na, .na, .pydatetime 5 0 0, .pystr (("7").toList) none] 6 7 = false := by
  decide

theorem length_if_append {α : Type} (A B : Prop) [Decidable A] [Decidable B] (x y : α) :
    ((if A then [x] else []) ++ (if B then [y] else [])).length
      = (if A then 1 else 0) + (if B then 1 else 0) := by
  by_cases hA : A <;> by_cases hB : B <;> simp [hA, hB]

/-- C5 amended: a spreadsheet row yields 0, 1 or 2 records; a record for a
driver slot is emitted exactly when both of the slot's name cells are
non-missing (`pd.notna`, which also accepts empty strings) and the row's
date cell parses; a row with an unparseable date yields no records. -/
theorem extract_entries_count (row : List PyVal) :
    (extract_entries row).length =
      (if (pyToDatetime (row.getD 14 .na)).isSome then
        (if !pyIsNa (row.getD 3 .na) && !pyIsNa (row.getD 4 .na) then 1 else 0)
          + (if !pyIsNa (row.getD 6 .na) && !pyIsNa (row.getD 7 .na) then 1 else 0)
      else 0)
    ∧ (extract_entries row).length ≤ 2 := by
  unfold extract_entries
  rcases hd : pyToDatetime (row.getD 14 PyVal.na) with _ | dd
  · simp
  · simp only [Option.isSome_some, eq_self_iff_true, if_true]
    rw [length_if_append]
    refine ⟨rfl, ?_⟩
    split <;> split <;> simp

theorem head_filter_filter_find {α : Type} (p q : α → Bool) (l : List α) :
    ((l.filter p).filter q).head? = l.find? (fun a => p a && q a) := by
  induction l with
  | nil => rfl
  | cons a t ih =>
    by_cases hp : p a
    · by_cases hq : q a <;>
        simp [List.filter_cons, hp, hq, List.find?_cons, ih, -List.filter_filter]
    · simp [List.filter_cons, hp, List.find?_cons, ih, -List.filter_filter]

/-- C6: the roster join is an exact-equality lookup on (name, date): it
returns the payload of the first entry in parse order matching both, and
in particular a name whose entries all lie on other dates yields an
absent result. -/
theorem roster_join_spec (entries : List RosterEntry) (d : Nat) (nm : Str)
    (hnm : nm ≠ []) :
    (roster_join entries d nm
      = (entries.find? (fun e => e.datum_raw == d && e.name == nm)).map
          (fun e => { matched_name := nm, tour := pyStr e.tour,
                      weekday := e.wochentag, time := e.uhrzeit : PageAnn })) ∧
    ((∀ e ∈ entries, e.name = nm → e.datum_raw ≠ d) →
      roster_join entries d nm = none) := by
  have hne : nm.isEmpty = false := by
    cases nm with
    | nil => exact absurd rfl hnm
    | cons c cs => rfl
  have h1 : roster_join entries d nm
      = (entries.find? (fun e => e.datum_raw == d && e.name == nm)).map
          (fun e => { matched_name := nm, tour := pyStr e.tour,
                      weekday := e.wochentag, time := e.uhrzeit : PageAnn }) := by
    unfold roster_join page_ann_for day_filter
    rw [if_neg (by simp [hne])]
    rw [head_filter_filter_find]
  refine ⟨h1, fun hall => ?_⟩
  rw [h1]
  have hfn : entries.find? (fun e => e.datum_raw == d && e.name == nm) = none := by
    rw [List.find?_eq_none]
    intro e he
    simp only [Bool.and_eq_true, beq_iff_eq]
    rintro ⟨hdd, hn⟩
    exact hall e he hn hdd
  rw [hfn]
  rfl

theorem roster_join_spec_witness :
    roster_join [⟨[], 3, [], PyVal.na, [], PyVal.na, ("Mueller Thomas").toList⟩] 5
      (("Mueller Thomas").toList) = none :=
  (roster_join_spec _ 5 (("Mueller Thomas").toList) (by decide)).2 (by decide)

theorem le_foldl_max {α : Type} (g : α → Nat) (k : Nat) (l : List α) (init : Nat) :
    (k ≤ l.foldl (fun m s => max m (g s)) init) ↔ k ≤ init ∨ ∃ s ∈ l, k ≤ g s := by
  induction l generalizing init with
  | nil => simp
  | cons a t ih =>
    rw [List.foldl_cons, ih]
    rw [le_max_iff]
    constructor
    · rintro (⟨h | h⟩ | ⟨s, hs, h⟩)
      · exact Or.inl h
      · exact Or.inr ⟨a, List.mem_cons_self a t, h⟩
      · exact Or.inr ⟨s, List.mem_cons_of_mem a hs, h⟩
    · rintro (h | ⟨s, hs, h⟩)
      · exact Or.inl (Or.inl h)
      · rcases List.mem_cons.mp hs with rfl | hmem
        · exact Or.inl (Or.inr h)
        · exact Or.inr ⟨s, hmem, h⟩

/-- C2 counterexample: on page text MUELLER with roster name Mueller
Thomas, the source's fuzzy strategy accepts (the bare surname variant
scores 100 against the whole text, clearing the 80 threshold) although
the word-wise maxima of the spec's reading are not both at least 90 (the
given name scores far below 90 against every page word). -/
theorem fuzzy_strategy_claim_refuted :
    fuzzyStrategyAccepts (some partialSim) (("MUELLER").toList)
        ((create_name_variants (fun l => l) (fun _ => false)
          (("Mueller Thomas").toList)).getD default) = true
    ∧ specFuzzyBothGe90 partialSim (("MUELLER").toList)
        (("Mueller Thomas").toList) = false := by
  decide

/-- C2 amended: the source's fuzzy strategy accepts a roster name iff the
similarity of some variant string (full name, surname, given name,
normalised and folded forms, reversed, initials, or a short form) against
the entire page text reaches 80; neither a per-component word-wise
maximum nor the 90 threshold of the spec is involved, and the threshold
argument is ignored. -/
theorem fuzzy_strategy_accepts_iff (fz : Str → Str → Nat) (text : Str)
    (v : NameVariants) :
    fuzzyStrategyAccepts (some fz) text v = true
      ↔ ∃ s ∈ variantStrings v, 80 ≤ fz (pyUpper s) (pyUpper text) := by
  unfold fuzzyStrategyAccepts fuzzy_match_with_threshold
  rw [decide_eq_true_eq, le_foldl_max]
  simp

/-- C1 counterexample: a page whose text exactly matches two roster names
(each accepted on its own) still yields a single-element result — the tie
is broken internally, not returned to the caller. -/
theorem advanced_name_matching_suppresses_ties :
    advanced_name_matching (fun l => l) (fun _ => false) none
        (("MUELLER THOMAS SCHMIDT ANNA").toList)
        [("Mueller Thomas").toList, ("Schmidt Anna").toList] (("x.pdf").toList)
      = some [("Mueller Thomas").toList]
    ∧ advanced_name_matching (fun l => l) (fun _ => false) none
        (("MUELLER THOMAS SCHMIDT ANNA").toList)
        [("Schmidt Anna").toList] (("x.pdf").toList)
      = some [("Schmidt Anna").toList] := by
  decide

/-- C1 amended: `advanced_name_matching` either fails (a roster name of
fewer than two tokens raises, modelled by `none`) or returns at most one
name: the empty list when nothing matched, else exactly the internally
disambiguated winner. -/
theorem advanced_name_matching_at_most_one (nfkd : Str → Str) (comb : Char → Bool)
    (lib : Option (Str → Str → Nat)) (text : Str) (excel_names : List Str)
    (pdf_name : Str) (l : List Str)
    (h : advanced_name_matching nfkd comb lib text excel_names pdf_name = some l) :
    l.length ≤ 1 := by
  unfold advanced_name_matching at h
  rcases hm : excel_names.mapM (create_name_variants nfkd comb) with _ | vl
  · rw [hm] at h
    cases h
  · rw [hm] at h
    simp only [Option.map_some] at h
    cases h
    beta_reduce
    split
    · simp
    · split
      · split <;> simp
      · simp

theorem advanced_name_matching_at_most_one_witness :
    ([("Mueller Thomas").toList] : List Str).length ≤ 1 :=
  advanced_name_matching_at_most_one (fun l => l) (fun _ => false) none
    (("MUELLER THOMAS SCHMIDT ANNA").toList)
    [("Mueller Thomas").toList, ("Schmidt Anna").toList] (("x.pdf").toList)
    [("Mueller Thomas").toList] rfl

theorem char_toNat_ofNat_lt {n : Nat} (h : n < 55296) : (Char.ofNat n).toNat = n := by
  rw [Char.ofNat, dif_pos (Or.inl h)]
  rfl

theorem char_eq_iff_toNat {a b : Char} : a = b ↔ a.toNat = b.toNat := by
  constructor
  · intro h
    rw [h]
  · intro h
    have := congrArg Char.ofNat h
    rwa [Char.ofNat_toNat, Char.ofNat_toNat] at this

theorem space_toNat : (' ').toNat = 32 := rfl

theorem canonChar_alnumSp {c : Char} (h : canonChar c = true) : alnumSpChar c = true := by
  simp only [canonChar, alnumSpChar, isAlnumChar, Bool.or_eq_true, Bool.and_eq_true,
    decide_eq_true_eq, char_eq_iff_toNat, space_toNat] at *
  omega

theorem canonChar_ws_iff {c : Char} (h : canonChar c = true) :
    isWsChar c = true ↔ c = ' ' := by
  simp only [canonChar, isWsChar, Bool.or_eq_true, Bool.and_eq_true,
    decide_eq_true_eq, char_eq_iff_toNat, space_toNat] at *
  omega

theorem alnumSp_ws_iff {c : Char} (h : alnumSpChar c = true) :
    isWsChar c = true ↔ c = ' ' := by
  simp only [alnumSpChar, isAlnumChar, isWsChar, Bool.or_eq_true, Bool.and_eq_true,
    decide_eq_true_eq, char_eq_iff_toNat, space_toNat] at *
  omega

theorem alnum_ne_space {c : Char} (h : isAlnumChar c = true) : ¬(c = ' ') := by
  simp only [isAlnumChar, Bool.or_eq_true, Bool.and_eq_true, decide_eq_true_eq,
    char_eq_iff_toNat, space_toNat] at *
  omega

theorem canonChar_alnum_of_ne_space {c : Char} (h : canonChar c = true)
    (hs : ¬(c = ' ')) : isAlnumChar c = true := by
  simp only [canonChar, isAlnumChar, Bool.or_eq_true, Bool.and_eq_true,
    decide_eq_true_eq, char_eq_iff_toNat, space_toNat] at *
  omega

theorem pyUpperChar_id_of_canon {c : Char} (h : canonChar c = true) :
    pyUpperChar c = c := by
  rw [pyUpperChar, if_neg]
  simp only [canonChar, Bool.or_eq_true, Bool.and_eq_true, decide_eq_true_eq,
    char_eq_iff_toNat, space_toNat] at h
  omega

theorem pyUpperChar_canon {c : Char} (h : alnumSpChar c = true) :
    canonChar (pyUpperChar c) = true := by
  rw [pyUpperChar]
  by_cases hl : 97 ≤ c.toNat ∧ c.toNat ≤ 122
  · rw [if_pos hl]
    have hv : (Char.ofNat (c.toNat - 32)).toNat = c.toNat - 32 :=
      char_toNat_ofNat_lt (by omega)
    simp only [canonChar, Bool.or_eq_true, Bool.and_eq_true, decide_eq_true_eq,
      char_eq_iff_toNat, space_toNat, hv]
    omega
  · rw [if_neg hl]
    simp only [alnumSpChar, isAlnumChar, canonChar, Bool.or_eq_true, Bool.and_eq_true,
      decide_eq_true_eq, char_eq_iff_toNat, space_toNat] at *
    omega

theorem pyUpperChar_space_iff {c : Char} : pyUpperChar c = ' ' ↔ c = ' ' := by
  rw [pyUpperChar]
  by_cases hl : 97 ≤ c.toNat ∧ c.toNat ≤ 122
  · rw [if_pos hl]
    have hv : (Char.ofNat (c.toNat - 32)).toNat = c.toNat - 32 :=
      char_toNat_ofNat_lt (by omega)
    simp only [char_eq_iff_toNat, space_toNat, hv]
    omega
  · rw [if_neg hl]

theorem noDD_cons {a : Char} {l : Str} :
    noDoubleSpace (a :: l) = true
      ↔ ¬(a = ' ' ∧ l.head? = some ' ') ∧ noDoubleSpace l = true := by
  cases l with
  | nil => simp [noDoubleSpace]
  | cons b t =>
    show (!(a = ' ' && b = ' ') && noDoubleSpace (b :: t)) = true ↔ _
    simp only [Bool.and_eq_true, Bool.not_eq_true', Bool.and_eq_false_iff,
      decide_eq_true_eq, decide_eq_false_iff_not, List.head?_cons, Option.some_inj]
    constructor
    · rintro ⟨h1, h2⟩
      refine ⟨?_, h2⟩
      rintro ⟨rfl, rfl⟩
      rcases h1 with h | h <;> exact h rfl
    · rintro ⟨h1, h2⟩
      refine ⟨?_, h2⟩
      by_cases ha : a = ' '
      · right
        intro hb
        exact h1 ⟨ha, hb⟩
      · left
        exact ha

theorem noDD_tail {a : Char} {l : Str} (h : noDoubleSpace (a :: l) = true) :
    noDoubleSpace l = true :=
  (noDD_cons.mp h).2

theorem replaceNonAlnum_mem (y : Str) :
    ∀ (b : Bool), ∀ ch ∈ replaceNonAlnum b y, alnumSpChar ch = true := by
  induction y with
  | nil =>
    intro b ch h
    cases h
  | cons c cs ih =>
    intro b ch h
    rw [replaceNonAlnum] at h
    by_cases hc : isAlnumChar c = true
    · rw [if_pos hc] at h
      rcases List.mem_cons.mp h with rfl | hm
      · simp [alnumSpChar, hc]
      · exact ih false ch hm
    · rw [if_neg hc] at h
      cases b with
      | true => exact ih true ch h
      | false =>
        rcases List.mem_cons.mp h with rfl | hm
        · decide
        · exact ih true ch hm

theorem replaceNonAlnum_noDD (y : Str) :
    noDoubleSpace (replaceNonAlnum false y) = true
    ∧ noDoubleSpace (replaceNonAlnum true y) = true
    ∧ (replaceNonAlnum true y).head? ≠ some ' ' := by
  induction y with
  | nil => exact ⟨rfl, rfl, by simp [replaceNonAlnum]⟩
  | cons c cs ih =>
    by_cases hc : isAlnumChar c = true
    · have hcs : c ≠ ' ' := alnum_ne_space hc
      have hbody : noDoubleSpace (c :: replaceNonAlnum false cs) = true := by
        rw [noDD_cons]
        refine ⟨?_, ih.1⟩
        rintro ⟨rfl, _⟩
        exact hcs rfl
      refine ⟨?_, ?_, ?_⟩
      · rw [replaceNonAlnum, if_pos hc]
        exact hbody
      · rw [replaceNonAlnum, if_pos hc]
        exact hbody
      · rw [replaceNonAlnum, if_pos hc]
        simp only [List.head?_cons, ne_eq, Option.some_inj]
        exact hcs
    · refine ⟨?_, ?_, ?_⟩
      · rw [replaceNonAlnum, if_neg hc, if_neg (by decide : ¬(false = true))]
        rw [noDD_cons]
        refine ⟨?_, ih.2.1⟩
        rintro ⟨_, hh⟩
        exact ih.2.2 hh
      · rw [replaceNonAlnum, if_neg hc, if_pos (rfl : (true = true))]
        exact ih.2.1
      · rw [replaceNonAlnum, if_neg hc, if_pos (rfl : (true = true))]
        exact ih.2.2

theorem collapseWs_id (l : Str) (hch : ∀ ch ∈ l, alnumSpChar ch = true)
    (hdd : noDoubleSpace l = true) :
    collapseWs false l = l ∧ (l.head? ≠ some ' ' → collapseWs true l = l) := by
  induction l with
  | nil => exact ⟨rfl, fun _ => rfl⟩
  | cons c cs ih =>
    have hch' : ∀ ch ∈ cs, alnumSpChar ch = true :=
      fun ch h => hch ch (List.mem_cons_of_mem _ h)
    obtain ⟨hhd, hdd'⟩ := noDD_cons.mp hdd
    have ihr := ih hch' hdd'
    by_cases hsp : c = ' '
    · subst hsp
      have htr : collapseWs true cs = cs := by
        apply ihr.2
        intro hh
        exact hhd ⟨rfl, hh⟩
      constructor
      · rw [collapseWs, if_pos (by decide : isWsChar ' ' = true),
          if_neg (by decide : ¬(false = true)), htr]
      · intro habs
        exact absurd (show (' ' :: cs).head? = some ' ' from rfl) habs
    · have hws : isWsChar c = false := by
        rcases hws' : isWsChar c with _ | _
        · rfl
        · exact absurd ((alnumSp_ws_iff (hch c (List.mem_cons_self c cs))).mp hws') hsp
      constructor
      · rw [collapseWs, if_neg (by simp [hws]), ihr.1]
      · intro _
        rw [collapseWs, if_neg (by simp [hws]), ihr.1]

theorem replaceNonAlnum_id (l : Str) (hch : ∀ ch ∈ l, canonChar ch = true)
    (hdd : noDoubleSpace l = true) :
    replaceNonAlnum false l = l ∧ (l.head? ≠ some ' ' → replaceNonAlnum true l = l) := by
  induction l with
  | nil => exact ⟨rfl, fun _ => rfl⟩
  | cons c cs ih =>
    have hch' : ∀ ch ∈ cs, canonChar ch = true :=
      fun ch h => hch ch (List.mem_cons_of_mem _ h)
    obtain ⟨hhd, hdd'⟩ := noDD_cons.mp hdd
    have ihr := ih hch' hdd'
    by_cases hsp : c = ' '
    · subst hsp
      have htr : replaceNonAlnum true cs = cs := by
        apply ihr.2
        intro hh
        exact hhd ⟨rfl, hh⟩
      constructor
      · rw [replaceNonAlnum, if_neg (by decide : ¬(isAlnumChar ' ' = true)),
          if_neg (by decide : ¬(false = true)), htr]
      · intro habs
        exact absurd (show (' ' :: cs).head? = some ' ' from rfl) habs
    · have hal : isAlnumChar c = true :=
        canonChar_alnum_of_ne_space (hch c (List.mem_cons_self c cs)) hsp
      constructor
      · rw [replaceNonAlnum, if_pos hal, ihr.1]
      · intro _
        rw [replaceNonAlnum, if_pos hal, ihr.1]

theorem dropWhile_ws_id (l : Str) (hch : ∀ ch ∈ l, alnumSpChar ch = true)
    (hhd : l.head? ≠ some ' ') : l.dropWhile isWsChar = l := by
  cases l with
  | nil => rfl
  | cons c cs =>
    have hsp : c ≠ ' ' := by
      intro h
      exact hhd (by rw [h]; rfl)
    have hws : isWsChar c = false := by
      rcases hws' : isWsChar c with _ | _
      · rfl
      · exact absurd ((alnumSp_ws_iff (hch c (List.mem_cons_self c cs))).mp hws') hsp
    simp [List.dropWhile_cons, hws]

theorem dropTrailWs_id (l : Str) (hch : ∀ ch ∈ l, alnumSpChar ch = true)
    (hlast : l.getLast? ≠ some ' ') : dropTrailWs l = l := by
  induction l with
  | nil => rfl
  | cons c cs ih =>
    cases cs with
    | nil =>
      have hsp : c ≠ ' ' := by
        intro h
        exact hlast (by rw [h]; rfl)
      have hws : isWsChar c = false := by
        rcases hws' : isWsChar c with _ | _
        · rfl
        · exact absurd ((alnumSp_ws_iff (hch c (List.mem_cons_self c []))).mp hws') hsp
      rw [dropTrailWs]
      show (match dropTrailWs [] with
        | [] => if isWsChar c then [] else [c]
        | r => c :: r) = [c]
      rw [show dropTrailWs ([] : Str) = [] from rfl]
      simp [hws]
    | cons d ds =>
      have hr : dropTrailWs (d :: ds) = d :: ds := by
        apply ih
        · intro ch h
          exact hch ch (List.mem_cons_of_mem _ h)
        · rwa [List.getLast?_cons_cons] at hlast
      rw [dropTrailWs, hr]

theorem pyStrip_id (l : Str) (hch : ∀ ch ∈ l, alnumSpChar ch = true)
    (hhd : l.head? ≠ some ' ') (hlast : l.getLast? ≠ some ' ') : pyStrip l = l := by
  rw [pyStrip, dropWhile_ws_id l hch hhd, dropTrailWs_id l hch hlast]

theorem umlautFoldChar_id {c : Char} (h : canonChar c = true) :
    umlautFoldChar c = [c] := by
  unfold umlautFoldChar
  split
  · exact absurd h (by decide)
  · exact absurd h (by decide)
  · exact absurd h (by decide)
  · exact absurd h (by decide)
  · exact absurd h (by decide)
  · exact absurd h (by decide)
  · exact absurd h (by decide)
  · exact absurd h (by decide)
  · rfl

theorem umlautFold_id (l : Str) (hch : ∀ ch ∈ l, canonChar ch = true) :
    umlautFold l = l := by
  induction l with
  | nil => rfl
  | cons c cs ih =>
    rw [umlautFold, List.flatMap_cons,
      umlautFoldChar_id (hch c (List.mem_cons_self c cs))]
    rw [umlautFold] at ih
    rw [ih (fun ch h => hch ch (List.mem_cons_of_mem _ h))]
    rfl

theorem pyUpper_id (l : Str) (hch : ∀ ch ∈ l, canonChar ch = true) :
    pyUpper l = l := by
  induction l with
  | nil => rfl
  | cons c cs ih =>
    rw [pyUpper, List.map_cons, pyUpperChar_id_of_canon (hch c (List.mem_cons_self c cs))]
    rw [pyUpper] at ih
    rw [ih (fun ch h => hch ch (List.mem_cons_of_mem _ h))]

theorem mem_dropWhile_ws {x : Char} {l : Str} (h : x ∈ l.dropWhile isWsChar) :
    x ∈ l := by
  induction l with
  | nil => exact h
  | cons c cs ih =>
    rw [List.dropWhile_cons] at h
    by_cases hc : isWsChar c = true
    · rw [if_pos hc] at h
      exact List.mem_cons_of_mem _ (ih h)
    · rw [if_neg hc] at h
      exact h

theorem noDD_dropWhile_ws {l : Str} (h : noDoubleSpace l = true) :
    noDoubleSpace (l.dropWhile isWsChar) = true := by
  induction l with
  | nil => exact h
  | cons c cs ih =>
    rw [List.dropWhile_cons]
    by_cases hc : isWsChar c = true
    · rw [if_pos hc]
      exact ih (noDD_tail h)
    · rw [if_neg hc]
      exact h

theorem head_dropWhile_ws_not_ws {l : Str} {x : Char}
    (hh : (l.dropWhile isWsChar).head? = some x) : isWsChar x = false := by
  induction l with
  | nil => cases hh
  | cons c cs ih =>
    rw [List.dropWhile_cons] at hh
    by_cases hc : isWsChar c = true
    · rw [if_pos hc] at hh
      exact ih hh
    · rw [if_neg hc] at hh
      rw [List.head?_cons, Option.some_inj] at hh
      subst hh
      simp only [Bool.not_eq_true] at hc
      exact hc

theorem mem_dropTrailWs {x : Char} {l : Str} (h : x ∈ dropTrailWs l) : x ∈ l := by
  induction l with
  | nil => exact h
  | cons c cs ih =>
    rw [dropTrailWs] at h
    rcases hr : dropTrailWs cs with _ | ⟨d, ds⟩ <;> rw [hr] at h
    · by_cases hc : isWsChar c = true
      · rw [if_pos hc] at h
        cases h
      · rw [if_neg hc] at h
        rcases List.mem_cons.mp h with rfl | hm
        · exact List.mem_cons_self _ _
        · cases hm
    · rcases List.mem_cons.mp h with rfl | hm
      · exact List.mem_cons_self _ _
      · exact List.mem_cons_of_mem _ (ih (hr ▸ hm))

theorem head_dropTrailWs {l : Str} {x : Char}
    (hh : (dropTrailWs l).head? = some x) : l.head? = some x := by
  induction l with
  | nil => cases hh
  | cons c cs _ =>
    rw [dropTrailWs] at hh
    rcases hr : dropTrailWs cs with _ | ⟨d, ds⟩ <;> rw [hr] at hh
    · by_cases hc : isWsChar c = true
      · rw [if_pos hc] at hh
        cases hh
      · rw [if_neg hc] at hh
        rw [List.head?_cons, Option.some_inj] at hh
        rw [List.head?_cons, Option.some_inj]
        exact hh
    · rw [List.head?_cons, Option.some_inj] at hh
      rw [List.head?_cons, Option.some_inj]
      exact hh

theorem noDD_dropTrailWs {l : Str} (h : noDoubleSpace l = true) :
    noDoubleSpace (dropTrailWs l) = true := by
  induction l with
  | nil => exact h
  | cons c cs ih =>
    obtain ⟨hhd, htl⟩ := noDD_cons.mp h
    rw [dropTrailWs]
    rcases hr : dropTrailWs cs with _ | ⟨d, ds⟩
    · by_cases hc : isWsChar c = true
      · rw [if_pos hc]
        rfl
      · rw [if_neg hc]
        rfl
    · rw [noDD_cons]
      refine ⟨?_, hr ▸ ih htl⟩
      rintro ⟨rfl, hds⟩
      apply hhd
      refine ⟨rfl, ?_⟩
      exact head_dropTrailWs (hr ▸ hds)

theorem getLast_dropTrailWs_not_ws {l : Str} {x : Char}
    (hh : (dropTrailWs l).getLast? = some x) : isWsChar x = false := by
  induction l with
  | nil => cases hh
  | cons c cs ih =>
    rw [dropTrailWs] at hh
    rcases hr : dropTrailWs cs with _ | ⟨d, ds⟩ <;> rw [hr] at hh
    · by_cases hc : isWsChar c = true
      · rw [if_pos hc] at hh
        cases hh
      · rw [if_neg hc] at hh
        rw [show ([c] : Str).getLast? = some c from rfl, Option.some_inj] at hh
        subst hh
        simp only [Bool.not_eq_true] at hc
        exact hc
    · rw [List.getLast?_cons_cons] at hh
      exact ih (hr ▸ hh)

theorem noDD_map_space {f : Char → Char} (hsp : ∀ c, f c = ' ' ↔ c = ' ')
    {l : Str} (h : noDoubleSpace l = true) : noDoubleSpace (l.map f) = true := by
  induction l with
  | nil => exact h
  | cons a t ih =>
    cases t with
    | nil => rfl
    | cons b s =>
      obtain ⟨hhd, htl⟩ := noDD_cons.mp h
      rw [List.map_cons]
      rw [noDD_cons]
      refine ⟨?_, ih htl⟩
      rintro ⟨hfa, hfb⟩
      apply hhd
      rw [List.map_cons, List.head?_cons, Option.some_inj] at hfb
      exact ⟨(hsp a).mp hfa, by rw [List.head?_cons, Option.some_inj]; exact (hsp b).mp hfb⟩

theorem getLast?_of_map (f : Char → Char) (l : Str) :
    (l.map f).getLast? = (l.getLast?).map f := by
  induction l with
  | nil => rfl
  | cons a t ih =>
    cases t with
    | nil => rfl
    | cons b s =>
      have h1 : (List.map f (a :: b :: s)).getLast? = (List.map f (b :: s)).getLast? := by
        rw [List.map_cons]
        rcases hbs : List.map f (b :: s) with _ | ⟨x, t⟩
        · simp at hbs
        · rw [List.getLast?_cons_cons]
      rw [h1, ih, List.getLast?_cons_cons]

theorem post_canon (y : Str) :
    (∀ ch ∈ pyUpper (pyStrip (collapseWs false (replaceNonAlnum false y))),
        canonChar ch = true)
    ∧ noDoubleSpace (pyUpper (pyStrip (collapseWs false (replaceNonAlnum false y)))) = true
    ∧ (pyUpper (pyStrip (collapseWs false (replaceNonAlnum false y)))).head? ≠ some ' '
    ∧ (pyUpper (pyStrip (collapseWs false (replaceNonAlnum false y)))).getLast? ≠ some ' ' := by
  have hchU := replaceNonAlnum_mem y false
  have hddU := (replaceNonAlnum_noDD y).1
  rw [(collapseWs_id _ hchU hddU).1]
  simp only [pyStrip]
  have hchS : ∀ ch ∈ dropTrailWs ((replaceNonAlnum false y).dropWhile isWsChar),
      alnumSpChar ch = true :=
    fun ch hm => hchU ch (mem_dropWhile_ws (mem_dropTrailWs hm))
  have hddS : noDoubleSpace (dropTrailWs ((replaceNonAlnum false y).dropWhile isWsChar))
      = true := noDD_dropTrailWs (noDD_dropWhile_ws hddU)
  have hheadS : (dropTrailWs ((replaceNonAlnum false y).dropWhile isWsChar)).head?
      ≠ some ' ' := by
    intro hcon
    exact absurd (head_dropWhile_ws_not_ws (head_dropTrailWs hcon)) (by decide)
  have hlastS : (dropTrailWs ((replaceNonAlnum false y).dropWhile isWsChar)).getLast?
      ≠ some ' ' := by
    intro hcon
    exact absurd (getLast_dropTrailWs_not_ws hcon) (by decide)
  refine ⟨?_, ?_, ?_, ?_⟩
  · intro ch hm
    rcases List.mem_map.mp hm with ⟨c, hcm, rfl⟩
    exact pyUpperChar_canon (hchS c hcm)
  · exact noDD_map_space (fun c => pyUpperChar_space_iff) hddS
  · intro hcon
    rcases hsl : dropTrailWs ((replaceNonAlnum false y).dropWhile isWsChar)
      with _ | ⟨a, t⟩
    · rw [pyUpper, hsl] at hcon
      cases hcon
    · rw [pyUpper, hsl, List.map_cons, List.head?_cons, Option.some_inj] at hcon
      apply hheadS
      rw [hsl, List.head?_cons, Option.some_inj]
      exact pyUpperChar_space_iff.mp hcon
  · intro hcon
    rw [pyUpper, getLast?_of_map] at hcon
    rcases hsl : (dropTrailWs ((replaceNonAlnum false y).dropWhile isWsChar)).getLast?
      with _ | a
    · rw [hsl] at hcon
      cases hcon
    · rw [hsl] at hcon
      rw [show Option.map pyUpperChar (some a) = some (pyUpperChar a) from rfl,
        Option.some_inj] at hcon
      apply hlastS
      rw [hsl, Option.some_inj]
      exact pyUpperChar_space_iff.mp hcon

theorem de_ascii_id_on_canon (nfkd : Str → Str) (comb : Char → Bool)
    (H1 : ∀ l : Str, (∀ ch ∈ l, canonChar ch = true) → nfkd l = l)
    (H2 : ∀ ch : Char, canonChar ch = true → comb ch = false)
    (l : Str) (hch : ∀ ch ∈ l, canonChar ch = true) (hdd : noDoubleSpace l = true)
    (hhd : l.head? ≠ some ' ') (hlast : l.getLast? ≠ some ' ') :
    de_ascii_normalize nfkd comb l = l := by
  unfold de_ascii_normalize
  rw [umlautFold_id l hch, H1 l hch,
    List.filter_eq_self.mpr (fun ch hm => by rw [H2 ch (hch ch hm)]; rfl),
    (replaceNonAlnum_id l hch hdd).1,
    (collapseWs_id l (fun ch hm => canonChar_alnumSp (hch ch hm)) hdd).1,
    pyStrip_id l (fun ch hm => canonChar_alnumSp (hch ch hm)) hhd hlast,
    pyUpper_id l hch]

/-- C8: the heavy normaliser `de_ascii_normalize` is idempotent.  Its
output alphabet is uppercase ASCII alphanumerics with single interior
spaces, and every stage — the German-letter fold, NFKD, combining-mark
stripping, non-alphanumeric run replacement, whitespace collapsing,
stripping and uppercasing — is the identity there.  The NFKD and
combining-mark parameters are only assumed to fix such already-canonical
text, as the real Unicode functions do on ASCII. -/
theorem de_ascii_normalize_idem (nfkd : Str → Str) (comb : Char → Bool)
    (H1 : ∀ l : Str, (∀ ch ∈ l, canonChar ch = true) → nfkd l = l)
    (H2 : ∀ ch : Char, canonChar ch = true → comb ch = false) (s : Str) :
    de_ascii_normalize nfkd comb (de_ascii_normalize nfkd comb s)
      = de_ascii_normalize nfkd comb s := by
  obtain ⟨hch, hdd, hhd, hlast⟩ :=
    post_canon ((nfkd (umlautFold s)).filter (fun ch => !comb ch))
  exact de_ascii_id_on_canon nfkd comb H1 H2 _ hch hdd hhd hlast

theorem de_ascii_normalize_idem_witness :
    de_ascii_normalize (fun l => l) (fun _ => false)
        (de_ascii_normalize (fun l => l) (fun _ => false)
          (("Müller-Lüdenscheid  42").toList))
      = de_ascii_normalize (fun l => l) (fun _ => false)
          (("Müller-Lüdenscheid  42").toList) :=
  de_ascii_normalize_idem (fun l => l) (fun _ => false)
    (fun _ _ => rfl) (fun _ _ => rfl) (("Müller-Lüdenscheid  42").toList)
